import Mathlib

/-!
Verification development for the ScholarBridge document-retrieval subsystem.

Shallow embedding of the chunking package (semantic_chunker.py,
metadata_enricher.py) and the retrieval package (bm25_index.py,
hybrid_retriever.py, reranker.py).

Modelling conventions:
- Python strings are `List Char`; `str.strip`, `str.split`, slicing and
  `str.lower` are modelled character-exactly for the ASCII fragment the
  code manipulates.
- Python floats are modelled as exact rationals `ℚ`; the spec itself
  disclaims agreement with floating-point numerics beyond the documented
  formulas.
- External collaborators (the rank_bm25 scoring library, the vector store,
  the language model, hashlib.md5, uuid4) are parameters of the embedding:
  the embedded functions take their outputs as arguments, exactly at the
  interface boundary where the source consumes them.
- The recursive splitter's non-structural recursion is driven by a fuel
  argument; the top-level entry point supplies generous fuel, and every
  invariant proved below holds for all fuel values.
-/

namespace ScholarBridge

/-! ## Python string primitives -/

theorem dropWhile_length_le (p : α → Bool) : ∀ l : List α, (l.dropWhile p).length ≤ l.length
  | [] => Nat.le_refl _
  | a :: l => by
    rw [List.dropWhile_cons]
    split
    · exact Nat.le_trans (dropWhile_length_le p l) (Nat.le_succ _)
    · exact Nat.le_refl _

/-- Characters stripped by Python `str.strip()` (the ASCII whitespace set). -/
def isPySpace (c : Char) : Bool :=
  c == ' ' || c == '\t' || c == '\n' || c == '\r' || c == '\x0b' || c == '\x0c'

/-- Python `str.strip()`: drop leading and trailing whitespace. -/
def pyStrip (l : List Char) : List Char :=
  ((l.dropWhile isPySpace).reverse.dropWhile isPySpace).reverse

/-- ASCII `str.lower()` on one character. -/
def toLowerChar (c : Char) : Char :=
  if 'A' ≤ c ∧ c ≤ 'Z' then Char.ofNat (c.toNat + 32) else c

/-- Python `str.split(sep)` for a one-character separator: split at every
occurrence, keeping empty parts. -/
def pySplitChar (s : Char) : List Char → List (List Char)
  | [] => [[]]
  | c :: rest =>
    if c = s then [] :: pySplitChar s rest
    else
      match pySplitChar s rest with
      | [] => [[c]]
      | p :: ps => (c :: p) :: ps

/-- Python `str.split(sep)` for a two-character separator: scan left to
right, splitting at each (non-overlapping) occurrence. -/
def pySplit2 (s0 s1 : Char) : List Char → List (List Char)
  | [] => [[]]
  | [c] => [[c]]
  | c0 :: c1 :: rest =>
    if c0 = s0 ∧ c1 = s1 then [] :: pySplit2 s0 s1 rest
    else
      match pySplit2 s0 s1 (c1 :: rest) with
      | [] => [[c0]]
      | p :: ps => (c0 :: p) :: ps

/-- Python `str.split(sep)`. The source only splits on its five fixed
separators and on a newline, all of length one or two (Python would raise
`ValueError` on an empty separator). -/
def pySplit (sep : List Char) (l : List Char) : List (List Char) :=
  match sep with
  | [s] => pySplitChar s l
  | [s0, s1] => pySplit2 s0 s1 l
  | _ => [l]

/-- Python `str.split()` with no argument (used by the reranker's word
sets): split on whitespace runs, discarding empty parts. The fuel argument
only drives structural recursion; each step consumes at least one
character, so fuel never runs out. -/
def splitWsFuel : ℕ → List Char → List (List Char)
  | 0, _ => []
  | _ + 1, [] => []
  | f + 1, c :: rest =>
    if isPySpace c then splitWsFuel f rest
    else (c :: rest.takeWhile (fun d => !(isPySpace d))) ::
      splitWsFuel f (rest.dropWhile (fun d => !(isPySpace d)))

def splitWs (l : List Char) : List (List Char) := splitWsFuel l.length l

/-- Decimal digits of a natural number (Python `str(i)`). -/
def natDigits (n : ℕ) : List Char := Nat.toDigits 10 n

theorem pyStrip_length_le (l : List Char) : (pyStrip l).length ≤ l.length := by
  unfold pyStrip
  have h1 := dropWhile_length_le isPySpace l
  have h2 := dropWhile_length_le isPySpace (l.dropWhile isPySpace).reverse
  simp only [List.length_reverse] at h2 ⊢
  omega

/-! ## Chunker data model (chunking/__init__.py) -/

/-- chunking/__init__.py `ChunkMetadata`. -/
structure ChunkMeta where
  source : List Char
  page : ℕ
  sectionLabel : List Char
  chunkIndex : ℕ
  parentChunkId : Option (List Char)
  overlapWithPrev : ℕ
  overlapWithNext : ℕ
  semanticTags : List (List Char)
deriving Repr, DecidableEq, Inhabited

/-- chunking/__init__.py `Chunk`. -/
structure ChunkRec where
  id : List Char
  text : List Char
  metadata : ChunkMeta
deriving Repr, DecidableEq, Inhabited

/-- semantic_chunker.py `ChunkConfig`. -/
structure ChunkConfig where
  chunkSize : ℕ
  overlapPercent : ℕ
  minChunkSize : ℕ
  sectionDetection : Bool
deriving Repr, DecidableEq

def defaultChunkConfig : ChunkConfig := ⟨1000, 20, 100, true⟩

/-- A raw chunk produced by the splitting stage: `(chunk_text, section_name)`
in the source. The `absorbed` field is ghost instrumentation (not present in
the source data): it is set exactly on a chunk that had a below-minimum-size
trailing remainder appended to it at semantic_chunker.py lines 243-246, and
is used only to state claim C1. -/
structure RawChunk where
  text : List Char
  sec : List Char
  absorbed : Bool
deriving Repr, DecidableEq, Inhabited

/-! ## Recursive splitting (semantic_chunker.py) -/

/-- The separator hierarchy of `_recursive_split`. -/
def chunkSeparators : List (List Char) :=
  [['\n', '\n'], ['\n'], ['.', ' '], [',', ' '], [' ']]

/-- Slices `text[i : i + n]` for `i = 0, n, 2n, ...` (`_hard_split`'s loop;
Python's `range` step must be positive, hence `max n 1`). Fuel drives
structural recursion; each step consumes at least one character. -/
def sliceChunksFuel (n : ℕ) : ℕ → List Char → List (List Char)
  | 0, _ => []
  | _ + 1, [] => []
  | f + 1, c :: rest => (c :: rest).take n :: sliceChunksFuel n f ((c :: rest).drop (max n 1))

def sliceChunks (n : ℕ) (l : List Char) : List (List Char) := sliceChunksFuel n l.length l

/-- semantic_chunker.py `_hard_split`. -/
def hardSplit (cfg : ChunkConfig) (text sec : List Char) : List RawChunk :=
  (sliceChunks cfg.chunkSize text).filterMap (fun sl =>
    if pyStrip sl ≠ [] then some ⟨pyStrip sl, sec, false⟩ else none)

/-- `test_chunk = current_chunk + separator + part if current_chunk else
part` (line 224). -/
def mergeTest (sep cur part : List Char) : List Char :=
  if cur = [] then part else cur ++ sep ++ part

/-- The flush of an overfull buffer (lines 229-230): emit the stripped
buffer only when it reaches the minimum size, otherwise drop it. -/
def mergeEmit (cfg : ChunkConfig) (sec : List Char) (chunks : List RawChunk)
    (cur : List Char) : List RawChunk :=
  if cur ≠ [] ∧ cfg.minChunkSize ≤ cur.length then
    chunks ++ [⟨pyStrip cur, sec, false⟩]
  else chunks

/-- The two trailing branches of `_merge_splits` (lines 240-247): emit the
final buffer if it is large enough, otherwise append it to the previous
chunk when one exists (marking that chunk `absorbed`), otherwise drop it. -/
def mergeFinish (cfg : ChunkConfig) (sep sec : List Char)
    (st : List RawChunk × List Char) : List RawChunk :=
  if st.2 ≠ [] ∧ cfg.minChunkSize ≤ (pyStrip st.2).length then
    st.1 ++ [⟨pyStrip st.2, sec, false⟩]
  else if st.2 ≠ [] ∧ st.1 ≠ [] then
    st.1.dropLast ++
      [⟨(st.1.getLastD default).text ++ sep ++ pyStrip st.2,
        (st.1.getLastD default).sec, true⟩]
  else st.1

mutual

/-- semantic_chunker.py `_recursive_split`, fuel-indexed. -/
def recursiveSplit (cfg : ChunkConfig) : ℕ → List Char → List Char → List RawChunk
  | 0, _, _ => []
  | fuel + 1, text, sec =>
    if text.length ≤ cfg.chunkSize then
      (if pyStrip text ≠ [] then [⟨text, sec, false⟩] else [])
    else trySeparators cfg fuel chunkSeparators text sec
termination_by structural fuel => fuel

/-- The separator loop of `_recursive_split` (lines 193-201): the first
separator that yields a multi-part split with a non-empty merge result wins;
otherwise fall through to `_hard_split`. -/
def trySeparators (cfg : ChunkConfig) : ℕ → List (List Char) → List Char → List Char → List RawChunk
  | 0, _, _, _ => []
  | _ + 1, [], text, sec => hardSplit cfg text sec
  | fuel + 1, sep :: restSeps, text, sec =>
    let parts := pySplit sep text
    if 1 < parts.length then
      (let cs := mergeSplits cfg fuel sep sec parts
       if cs = [] then trySeparators cfg fuel restSeps text sec else cs)
    else trySeparators cfg fuel restSeps text sec
termination_by structural fuel => fuel

/-- semantic_chunker.py `_merge_splits`. -/
def mergeSplits (cfg : ChunkConfig) : ℕ → List Char → List Char → List (List Char) → List RawChunk
  | 0, _, _, _ => []
  | fuel + 1, sep, sec, parts =>
    mergeFinish cfg sep sec (mergeLoop cfg fuel sep sec parts ([], []))
termination_by structural fuel => fuel

/-- The accumulation loop of `_merge_splits` (lines 223-238); the state is
`(chunks, current_chunk)`. -/
def mergeLoop (cfg : ChunkConfig) : ℕ → List Char → List Char → List (List Char) →
    List RawChunk × List Char → List RawChunk × List Char
  | 0, _, _, _, st => st
  | _ + 1, _, _, [], st => st
  | fuel + 1, sep, sec, part :: rest, (chunks, cur) =>
    if (mergeTest sep cur part).length ≤ cfg.chunkSize then
      mergeLoop cfg fuel sep sec rest (chunks, mergeTest sep cur part)
    else
      if cfg.chunkSize < part.length then
        mergeLoop cfg fuel sep sec rest
          (mergeEmit cfg sec chunks cur ++ recursiveSplit cfg fuel part sec, [])
      else
        mergeLoop cfg fuel sep sec rest (mergeEmit cfg sec chunks cur, part)
termination_by structural fuel => fuel

end

/-! ## Section detection (chunking/__init__.py `SECTION_PATTERNS`,
semantic_chunker.py `detect_sections`)

Each compiled regex is applied with `pattern.match(stripped_line)` under
`re.IGNORECASE`; the matchers below are the patterns specialised to a
whitespace-stripped single line (so `\s*$` means "end of string"). -/

/-- Skip an optional `.` then `\s*`, then require the word as a prefix:
the tail `\.?\s*word` of the numbered-heading patterns. -/
def afterNumHeading (word : List Char) (l : List Char) : Bool :=
  let l1 := if l.head? = some '.' then l.tail else l
  word.isPrefixOf (l1.dropWhile isPySpace)

/-- Pattern `^N\.?\s*word...` applied to a lowercased stripped line. -/
def numHeading (digit : Char) (word : List Char) (l : List Char) : Bool :=
  match l with
  | [] => false
  | c :: rest => c == digit && afterNumHeading word rest

/-- Pattern `^materials?\s+and\s+methods?`. -/
def materialsAndMethods (l : List Char) : Bool :=
  ("material".toList).isPrefixOf l &&
    (let r1 := l.drop 8
     let r2 := if r1.head? = some 's' then r1.tail else r1
     match r2 with
     | [] => false
     | c :: _ => isPySpace c &&
        (let r3 := r2.dropWhile isPySpace
         ("and".toList).isPrefixOf r3 &&
           (let r4 := r3.drop 3
            match r4 with
            | [] => false
            | d :: _ => isPySpace d && ("method".toList).isPrefixOf (r4.dropWhile isPySpace))))

/-- `SECTION_PATTERNS` applied in dictionary (insertion) order to a stripped
line, returning the first matching section name, as in the inner loop of
`detect_sections` / `_detect_section`. -/
def matchSectionLine (stripped : List Char) : Option (List Char) :=
  let l := stripped.map toLowerChar
  if l = "abstract".toList ∨ l = "summary".toList then some ("abstract".toList)
  else if numHeading '1' ("introduction".toList) l ∨ l = "introduction".toList then
    some ("introduction".toList)
  else if numHeading '2' ("method".toList) l ∨ materialsAndMethods l ∨
      ("methodology".toList).isPrefixOf l then some ("methods".toList)
  else if numHeading '3' ("result".toList) l ∨ ("findings".toList).isPrefixOf l then
    some ("results".toList)
  else if numHeading '4' ("discussion".toList) l ∨ ("analysis".toList).isPrefixOf l then
    some ("discussion".toList)
  else if numHeading '5' ("conclusion".toList) l ∨ ("concluding".toList).isPrefixOf l then
    some ("conclusion".toList)
  else if l = "reference".toList ∨ l = "references".toList ∨
      ("bibliography".toList).isPrefixOf l then some ("references".toList)
  else none

/-- Start offset of each line (the `lines_cumulative` array: each line's
length plus one for the newline). -/
def lineStartsAux : List (List Char) → ℕ → List ℕ
  | [], _ => []
  | l :: rest, pos => pos :: lineStartsAux rest (pos + l.length + 1)

/-- The detection pass of `detect_sections`: `(section_name, line_index)`
for every line whose stripped form matches a pattern. -/
def sectionHits (lines : List (List Char)) : List (List Char × ℕ) :=
  lines.enum.filterMap (fun p => (matchSectionLine (pyStrip p.2)).map (fun nm => (nm, p.1)))

/-- semantic_chunker.py `detect_sections`: `(section_name, start, end)` in
character offsets; a section ends where the next detected heading line
starts, the last one at the end of the text. -/
def detectSections (text : List Char) : List (List Char × ℕ × ℕ) :=
  let lines := pySplit ['\n'] text
  let hits := sectionHits lines
  if hits = [] then []
  else
    let cum := lineStartsAux lines 0
    hits.enum.map (fun p =>
      let st := cum.getD p.2.2 0
      let en :=
        if p.1 + 1 < hits.length then cum.getD (hits.getD (p.1 + 1) default).2 0
        else text.length
      (p.2.1, st, en))

/-- semantic_chunker.py `_recursive_split_with_sections`. -/
def splitWithSections (cfg : ChunkConfig) (fuel : ℕ) (text : List Char)
    (sections : List (List Char × ℕ × ℕ)) : List RawChunk :=
  (match sections with
   | [] => []
   | s :: _ =>
     if 0 < s.2.1 ∧ pyStrip (text.take s.2.1) ≠ [] then
       recursiveSplit cfg fuel (pyStrip (text.take s.2.1)) ("preamble".toList)
     else []) ++ (sections.map (fun s =>
    if pyStrip ((text.drop s.2.1).take (s.2.2 - s.2.1)) ≠ [] then
      recursiveSplit cfg fuel (pyStrip ((text.drop s.2.1).take (s.2.2 - s.2.1))) s.1
    else [])).flatten

/-! ## Overlap stitching and chunk materialization (semantic_chunker.py
`_apply_overlap`, `_create_chunks`, `chunk`) -/

/-- `int(chunk_size * overlap_percent / 100)`. -/
def overlapChars (cfg : ChunkConfig) : ℕ := cfg.chunkSize * cfg.overlapPercent / 100

/-- Python `l[-n:]`: for `n = 0` this is the whole list (`l[-0:] = l[0:]`),
otherwise the last `n` characters. -/
def lastSlice (n : ℕ) (l : List Char) : List Char :=
  if n = 0 then l else l.drop (l.length - n)

/-- `text[-overlap_chars:] if len(text) > overlap_chars else text`
(lines 300 and 309). -/
def overlapContent (cfg : ChunkConfig) (text : List Char) : List Char :=
  if overlapChars cfg < text.length then lastSlice (overlapChars cfg) text else text

/-- The overlap prepend for chunk `i` (lines 297-304): the new chunk text
and the recorded `overlap_with_prev`. -/
def prependOverlap (cfg : ChunkConfig) (chunks : List (List Char × List Char))
    (i : ℕ) : List Char × ℕ :=
  if 0 < i then
    (if (overlapContent cfg (chunks.getD (i - 1) ([], [])).1).isPrefixOf
        (chunks.getD i ([], [])).1 then
      ((chunks.getD i ([], [])).1, 0)
     else
      (overlapContent cfg (chunks.getD (i - 1) ([], [])).1 ++ [' '] ++
          (chunks.getD i ([], [])).1,
        (overlapContent cfg (chunks.getD (i - 1) ([], [])).1).length))
  else ((chunks.getD i ([], [])).1, 0)

/-- The recorded `overlap_with_next` for chunk `i` (lines 306-310): derived
from the chunk's own text, and `0` for the last chunk. -/
def nextOverlapLen (cfg : ChunkConfig) (chunks : List (List Char × List Char))
    (i : ℕ) : ℕ :=
  if i + 1 < chunks.length then (overlapContent cfg (chunks.getD i ([], [])).1).length
  else 0

/-- semantic_chunker.py `_apply_overlap`: returns
`(chunk_text, section, overlap_prev, overlap_next)` tuples. -/
def applyOverlap (cfg : ChunkConfig) (chunks : List (List Char × List Char)) :
    List (List Char × List Char × ℕ × ℕ) :=
  (List.range chunks.length).map (fun i =>
    ((prependOverlap cfg chunks i).1, (chunks.getD i ([], [])).2,
      (prependOverlap cfg chunks i).2, nextOverlapLen cfg chunks i))

/-- semantic_chunker.py `_create_chunks`; `rand i` stands for the
`uuid.uuid4().hex[:8]` token drawn for chunk `i`. -/
def createChunks (rand : ℕ → List Char) (src : List Char)
    (l : List (List Char × List Char × ℕ × ℕ)) : List ChunkRec :=
  l.enum.map (fun p =>
    { id := src ++ ['_'] ++ p.2.2.1 ++ ['_'] ++ natDigits p.1 ++ ['_'] ++ rand p.1
      text := p.2.1
      metadata :=
        { source := src
          page := 0
          sectionLabel := p.2.2.1
          chunkIndex := p.1
          parentChunkId := none
          overlapWithPrev := p.2.2.2.1
          overlapWithNext := p.2.2.2.2
          semanticTags := [] } })

/-- Generous fuel for the recursive splitter: the top-level entry point
never exhausts it. -/
def chunkFuel (text : List Char) : ℕ := (text.length + 8) * 8

/-- Steps 1-2 of `SemanticChunker.chunk`: the raw splitting stage, before
the overlap prepend. -/
def rawSplitStage (cfg : ChunkConfig) (text : List Char) : List RawChunk :=
  let sections := if cfg.sectionDetection then detectSections text else []
  if sections ≠ [] then splitWithSections cfg (chunkFuel text) text sections
  else recursiveSplit cfg (chunkFuel text) text ("body".toList)

/-- semantic_chunker.py `SemanticChunker.chunk`. -/
def semanticChunk (cfg : ChunkConfig) (rand : ℕ → List Char)
    (text src : List Char) : List ChunkRec :=
  if pyStrip text = [] then []
  else
    createChunks rand src
      (applyOverlap cfg ((rawSplitStage cfg text).map (fun rc => (rc.text, rc.sec))))

/-! ## Metadata enricher (metadata_enricher.py) -/

/-- metadata_enricher.py `EnricherConfig`. -/
structure EnricherConfig where
  semanticTagging : Bool
  hierarchicalIds : Bool
  extractPageNumbers : Bool
deriving Repr, DecidableEq

def defaultEnricherConfig : EnricherConfig := ⟨false, true, true⟩

/-- The `pdf_metadata` mapping consumed by `_extract_page_number`:
`page_map` maps character offsets to page numbers, `chunk_offsets` maps a
chunk id to its start offset. `none` stands for an absent (or empty, hence
falsy) `pdf_metadata` dictionary. -/
structure PdfMeta where
  pageMap : List (ℕ × ℕ)
  chunkOffsets : List (List Char × ℕ)
deriving Repr, DecidableEq

/-- A regex word character (`\w`), ASCII fragment. -/
def isWordChar (c : Char) : Bool := c.isAlphanum || c == '_'

/-- Numeric value of a run of decimal digits (Python `int(...)`). -/
def natOfDigits (l : List Char) : ℕ :=
  l.foldl (fun a c => a * 10 + (c.toNat - 48)) 0

/-- One anchored attempt of the regex `\bpage\s*(\d+)\b` (IGNORECASE) at
position `i` of the text. -/
def pageMatchAt (l : List Char) (i : ℕ) : Option ℕ :=
  if i = 0 ∨ ¬ isWordChar (l.getD (i - 1) ' ') then
    let restL := (l.drop i).map toLowerChar
    if ("page".toList).isPrefixOf restL then
      let afterWs := (restL.drop 4).dropWhile isPySpace
      let digits := afterWs.takeWhile Char.isDigit
      let rest2 := afterWs.drop digits.length
      if digits ≠ [] ∧ (rest2 = [] ∨ ¬ isWordChar (rest2.getD 0 ' ')) then
        some (natOfDigits digits)
      else none
    else none
  else none

/-- `re.search(r'\bpage\s*(\d+)\b', text, re.IGNORECASE)`: the leftmost
match wins. -/
def pageRegexSearch (l : List Char) : Option ℕ :=
  (List.range l.length).findSome? (fun i => pageMatchAt l i)

/-- `sorted(page_map.items())`: ascending by key (keys are unique). -/
def pageMapSorted (pm : List (ℕ × ℕ)) : List (ℕ × ℕ) :=
  pm.insertionSort (fun a b => a.1 < b.1 ∨ (a.1 = b.1 ∧ a.2 ≤ b.2))

/-- metadata_enricher.py `_extract_page_number`: with a non-empty
`page_map`, scan the entries in ascending key order and return the page of
the FIRST offset not exceeding the chunk's start offset; with no map, fall
back to the `page N` regex scan, else 0. -/
def extractPageNumber (pdf : PdfMeta) (chunk : ChunkRec) : ℕ :=
  if pdf.pageMap = [] then
    match pageRegexSearch chunk.text with
    | some n => n
    | none => 0
  else
    let start := ((pdf.chunkOffsets.find? (fun p => p.1 = chunk.id)).map (fun p => p.2)).getD 0
    match (pageMapSorted pdf.pageMap).find? (fun op => op.1 ≤ start) with
    | some op => op.2
    | none => 0

/-- Modelled from the spec: "look up the chunk's recorded start offset and
take the highest page boundary not exceeding it" (spec.md section 4.2).
Used only to exhibit the divergence of `extractPageNumber` from the spec. -/
def pageBySpec (pdf : PdfMeta) (chunk : ChunkRec) : ℕ :=
  let start := ((pdf.chunkOffsets.find? (fun p => p.1 = chunk.id)).map (fun p => p.2)).getD 0
  match ((pageMapSorted pdf.pageMap).filter (fun op => op.1 ≤ start)).getLast? with
  | some op => op.2
  | none => 0

/-- Python `pat in text` substring test. -/
def containsSub (pat l : List Char) : Bool :=
  (List.range (l.length + 1)).any (fun i => pat.isPrefixOf (l.drop i))

/-- metadata_enricher.py `_detect_section`: heading patterns against the
first five lines, then content-keyword heuristics. -/
def detectSectionText (text : List Char) : Option (List Char) :=
  match ((pySplit ['\n'] text).take 5).findSome? (fun ln => matchSectionLine (pyStrip ln)) with
  | some s => some s
  | none =>
    let tl := text.map toLowerChar
    if containsSub ("we propose".toList) tl ∨ containsSub ("this paper".toList) tl ∨
        containsSub ("we present".toList) tl ∨ containsSub ("in this work".toList) tl then
      some ("introduction".toList)
    else if containsSub ("experiment".toList) tl ∨ containsSub ("dataset".toList) tl ∨
        containsSub ("training".toList) tl ∨ containsSub ("evaluation".toList) tl then
      some ("methods".toList)
    else if containsSub ("accuracy".toList) tl ∨ containsSub ("performance".toList) tl ∨
        containsSub ("table".toList) tl ∨ containsSub ("figure".toList) tl ∨
        containsSub ("results show".toList) tl then
      some ("results".toList)
    else if containsSub ("limitation".toList) tl ∨ containsSub ("future work".toList) tl ∨
        containsSub ("in conclusion".toList) tl ∨ containsSub ("we have shown".toList) tl then
      some ("conclusion".toList)
    else none

/-- `section.replace(" ", "_").lower() if section else "unknown"`. -/
def sectionClean (sec : List Char) : List Char :=
  if sec = [] then "unknown".toList
  else sec.map (fun c => if c = ' ' then '_' else toLowerChar c)

/-- `f"{index:04d}"`. -/
def zeroPad4 (n : ℕ) : List Char :=
  let d := natDigits n
  List.replicate (4 - d.length) '0' ++ d

/-- metadata_enricher.py `_generate_hierarchical_id`; `md5hex s` stands for
`hashlib.md5(s).hexdigest()` of the external hash collaborator. -/
def hierarchicalId (md5hex : List Char → List Char) (source sec : List Char)
    (index : ℕ) (text : List Char) : List Char :=
  (md5hex source).take 8 ++ ['_'] ++ sectionClean sec ++ ['_'] ++ zeroPad4 index ++
    ['_'] ++ (md5hex text).take 6

/-- The section label `_enrich_chunk` ends up storing: corrected when
missing or the generic `"body"`. -/
def correctedSection (chunk : ChunkRec) : List Char :=
  if chunk.metadata.sectionLabel = [] ∨ chunk.metadata.sectionLabel = "body".toList then
    match detectSectionText chunk.text with
    | some s => s
    | none => chunk.metadata.sectionLabel
  else chunk.metadata.sectionLabel

/-- metadata_enricher.py `_enrich_chunk`. -/
def enrichChunk (ecfg : EnricherConfig) (md5hex : List Char → List Char)
    (pdfMeta : Option PdfMeta) (chunk : ChunkRec) (index : ℕ) : ChunkRec :=
  let page :=
    match pdfMeta with
    | some pdf => if ecfg.extractPageNumbers then extractPageNumber pdf chunk
                  else chunk.metadata.page
    | none => chunk.metadata.page
  let sec := correctedSection chunk
  let newId :=
    if ecfg.hierarchicalIds then
      hierarchicalId md5hex chunk.metadata.source sec index chunk.text
    else chunk.id
  { id := newId
    text := chunk.text
    metadata := { chunk.metadata with page := page, sectionLabel := sec } }

/-- The `for i, chunk in enumerate(chunks)` loop of `enrich`. -/
def enrichList (ecfg : EnricherConfig) (md5hex : List Char → List Char)
    (pdfMeta : Option PdfMeta) : List ChunkRec → ℕ → List ChunkRec
  | [], _ => []
  | c :: rest, i => enrichChunk ecfg md5hex pdfMeta c i :: enrichList ecfg md5hex pdfMeta rest (i + 1)

/-- metadata_enricher.py `_assign_parent_relationships`; `seen` is the
`section_first_chunk` mapping in first-insertion order. -/
def assignParentsLoop : List ChunkRec → List (List Char × List Char) → List ChunkRec
  | [], _ => []
  | c :: rest, seen =>
    match seen.find? (fun p => p.1 = c.metadata.sectionLabel) with
    | some p =>
      { c with metadata := { c.metadata with parentChunkId := some p.2 } } ::
        assignParentsLoop rest seen
    | none =>
      { c with metadata := { c.metadata with parentChunkId := none } } ::
        assignParentsLoop rest (seen ++ [(c.metadata.sectionLabel, c.id)])

/-- metadata_enricher.py `MetadataEnricher.enrich` (the semantic-tagging
step is a separate method, disabled in the default configuration). -/
def enrich (ecfg : EnricherConfig) (md5hex : List Char → List Char)
    (chunks : List ChunkRec) (pdfMeta : Option PdfMeta) : List ChunkRec :=
  if chunks = [] then []
  else
    let enriched := enrichList ecfg md5hex pdfMeta chunks 0
    if ecfg.hierarchicalIds then assignParentsLoop enriched [] else enriched

/-! ## Retrieval data model (retrieval/__init__.py) -/

/-- retrieval/__init__.py `RetrievalResult` (scores are modelled as exact
rationals; metadata is carried opaquely). -/
structure RetrievalResult where
  chunkId : List Char
  text : List Char
  score : ℚ
  src : List Char
  metadata : List (List Char × List Char)
deriving Repr, DecidableEq, Inhabited

/-- retrieval/__init__.py `RerankConfig`. -/
structure RerankConfig where
  enabled : Bool
  diversityThreshold : ℚ
  relevanceThreshold : ℚ
  maxContextTokens : ℕ
deriving Repr, DecidableEq

def defaultRerankConfig : RerankConfig := ⟨true, 7/10, 1/2, 4000⟩

/-! ## BM25 index (bm25_index.py)

The `rank_bm25.BM25Okapi` scorer is an external library: `search` consumes
its `get_scores` output, modelled as the `scores` argument (one score per
indexed chunk). -/

/-- The state `(_index, _chunks)` of `BM25Index`: `indexBuilt` models
whether `_index` is a `BM25Okapi` object rather than `None`. -/
structure BM25State where
  indexBuilt : Bool
  chunks : List ChunkRec
deriving Repr, DecidableEq

/-- A fresh `BM25Index()`: `_index = None`, `_chunks = []`. -/
def bm25Init : BM25State := ⟨false, []⟩

/-- bm25_index.py `build_index`: an empty chunk list resets the state. -/
def buildIndex (chunks : List ChunkRec) : BM25State :=
  if chunks = [] then ⟨false, []⟩ else ⟨true, chunks⟩

/-- Python's stable `list.sort(key=lambda x: x[1], reverse=True)` on
`(index, score)` pairs: equal scores keep ascending index order. -/
def scoreDescIdxAsc (a b : ℕ × ℚ) : Prop :=
  b.2 < a.2 ∨ (a.2 = b.2 ∧ a.1 ≤ b.1)

instance : DecidableRel scoreDescIdxAsc := fun a b => by
  unfold scoreDescIdxAsc; infer_instance

instance : IsTotal (ℕ × ℚ) scoreDescIdxAsc where
  total a b := by
    unfold scoreDescIdxAsc
    rcases lt_trichotomy a.2 b.2 with h | h | h
    · exact Or.inr (Or.inl h)
    · rcases Nat.le_total a.1 b.1 with h1 | h1
      · exact Or.inl (Or.inr ⟨h, h1⟩)
      · exact Or.inr (Or.inr ⟨h.symm, h1⟩)
    · exact Or.inl (Or.inl h)

instance : IsTrans (ℕ × ℚ) scoreDescIdxAsc where
  trans a b c hab hbc := by
    unfold scoreDescIdxAsc at hab hbc ⊢
    rcases hab with h1 | ⟨h1, h1i⟩ <;> rcases hbc with h2 | ⟨h2, h2i⟩
    · exact Or.inl (lt_trans h2 h1)
    · exact Or.inl (h2 ▸ h1)
    · exact Or.inl (h1 ▸ h2)
    · exact Or.inr ⟨h1.trans h2, h1i.trans h2i⟩

/-- The ranked positive `(index, score)` pairs of `BM25Index.search`:
enumerate scores, sort descending (stable), truncate to `top_k`, keep the
strictly positive ones. -/
def bm25Ranking (scores : List ℚ) (topK : ℕ) : List (ℕ × ℚ) :=
  ((scores.enum.insertionSort scoreDescIdxAsc).take topK).filter (fun p => 0 < p.2)

/-- bm25_index.py `search`. -/
def bm25Search (st : BM25State) (scores : List ℚ) (topK : ℕ) : List RetrievalResult :=
  if st.indexBuilt = false ∨ st.chunks = [] then []
  else
    (bm25Ranking scores topK).map (fun p =>
      let chunk := st.chunks.getD p.1 default
      { chunkId := chunk.id
        text := chunk.text
        score := p.2
        src := "bm25".toList
        metadata := [] })

/-! ## Hybrid retriever (hybrid_retriever.py) -/

/-- The running contribution of one ranked list to one chunk id in
`rrf_fusion`: each occurrence at 0-based `rank` adds `w / (k + rank + 1)`;
`r` is the rank of the list's first element. -/
def contribAux (w k : ℚ) (c : List Char) : List (List Char) → ℕ → ℚ
  | [], _ => 0
  | cid :: rest, r =>
    (if cid = c then w / (k + (r : ℚ) + 1) else 0) + contribAux w k c rest (r + 1)

/-- The fused RRF score of chunk id `c` for BM25 list `B` and vector list
`V` (hybrid_retriever.py lines 163-178). -/
def rrfScore (wB wV k : ℚ) (B V : List RetrievalResult) (c : List Char) : ℚ :=
  contribAux wB k c (B.map (fun r => r.chunkId)) 0 +
    contribAux wV k c (V.map (fun r => r.chunkId)) 0

/-- First-seen deduplication: the key insertion order of the `scores`
defaultdict (all BM25 ids in order, then the new vector ids). Fuel drives
structural recursion; each step consumes at least one element. -/
def dedupKeepFirstFuel : ℕ → List (List Char) → List (List Char)
  | 0, _ => []
  | _ + 1, [] => []
  | f + 1, a :: rest => a :: dedupKeepFirstFuel f (rest.filter (fun x => x ≠ a))

def dedupKeepFirst (l : List (List Char)) : List (List Char) :=
  dedupKeepFirstFuel l.length l

/-- `chunks[chunk_id]`: the first result bearing the id, scanning the BM25
list then the vector list. -/
def firstResultFor (B V : List RetrievalResult) (c : List Char) : RetrievalResult :=
  ((B ++ V).find? (fun r => r.chunkId = c)).getD default

/-- hybrid_retriever.py `rrf_fusion`: fuse, sort ids by descending fused
score (stable over key insertion order), emit results tagged `"hybrid"`. -/
def rrfFusion (wB wV k : ℚ) (B V : List RetrievalResult) : List RetrievalResult :=
  let ids := dedupKeepFirst ((B ++ V).map (fun r => r.chunkId))
  let keyed := ids.enum.map (fun p => (p.1, rrfScore wB wV k B V p.2))
  let sortedIds :=
    ((keyed.insertionSort scoreDescIdxAsc).map (fun p => ids.getD p.1 []))
  sortedIds.map (fun c =>
    { firstResultFor B V c with score := rrfScore wB wV k B V c, src := "hybrid".toList })

/-! ## Reranker (reranker.py) -/

/-- reranker.py `_get_relevance_score`: `resp` models the outcome of
`float(response.strip())` over the awaited LLM call — `none` when the call
or the parse raraised; any failure yields the default `0.5`, success is
divided by 10 and clamped to `[0, 1]`. -/
def getRelevanceScore (resp : Option ℚ) : ℚ :=
  match resp with
  | none => 1/2
  | some x => min (max (x / 10) 0) 1

/-- Stable descending sort of results by score (`scored.sort(key=lambda x:
x["score"], reverse=True)`): pair with position, sort, project. -/
def sortByScoreDesc (l : List RetrievalResult) : List RetrievalResult :=
  ((l.enum.map (fun p => (p.1, p.2.score))).insertionSort scoreDescIdxAsc).map
    (fun p => l.getD p.1 default)

/-- reranker.py `_score_relevance` with an LLM client present: `oracle i`
is the parsed-float outcome of the call for candidate `i`. -/
def scoreRelevance (oracle : ℕ → Option ℚ) (results : List RetrievalResult) :
    List RetrievalResult :=
  sortByScoreDesc (results.enum.map (fun p =>
    { p.2 with score := getRelevanceScore (oracle p.1) }))

/-- The lowercase word set of a text (reranker.py `_text_similarity`). -/
def wordSet (t : List Char) : Finset (List Char) :=
  (splitWs (t.map toLowerChar)).toFinset

/-- reranker.py `_text_similarity`: Jaccard similarity of word sets, `0`
when either set is empty. -/
def textSimilarity (t1 t2 : List Char) : ℚ :=
  let w1 := wordSet t1
  let w2 := wordSet t2
  if w1 = ∅ ∨ w2 = ∅ then 0
  else ((w1 ∩ w2).card : ℚ) / ((w1 ∪ w2).card : ℚ)

/-- The greedy loop of `_filter_diversity`; `diverse` is the kept list. -/
def filterDivLoop (θ : ℚ) : List RetrievalResult → List RetrievalResult → List RetrievalResult
  | [], diverse => diverse
  | r :: rest, diverse =>
    if diverse.all (fun s => decide (textSimilarity r.text s.text ≤ θ)) then
      filterDivLoop θ rest (diverse ++ [r])
    else filterDivLoop θ rest diverse

/-- reranker.py `_filter_diversity`: always keep the first result, then keep
a candidate iff its similarity to every kept result stays within the
threshold. -/
def filterDiversity (θ : ℚ) : List RetrievalResult → List RetrievalResult
  | [] => []
  | r :: rest => filterDivLoop θ rest [r]

/-- reranker.py `_limit_context`: accumulate `len(text) // 4` token
estimates until the budget would be exceeded, then stop. -/
def limitContextAux (maxTok : ℕ) : List RetrievalResult → ℕ → List RetrievalResult
  | [], _ => []
  | r :: rest, total =>
    let t := r.text.length / 4
    if total + t ≤ maxTok then r :: limitContextAux maxTok rest (total + t) else []

def limitContext (maxTok : ℕ) (l : List RetrievalResult) : List RetrievalResult :=
  limitContextAux maxTok l 0

/-- `results[:top_k] if top_k else results`: `None` and `0` are both falsy. -/
def truncOpt (topK : Option ℕ) (l : List RetrievalResult) : List RetrievalResult :=
  match topK with
  | none => l
  | some 0 => l
  | some k => l.take k

/-- reranker.py `Reranker.rerank`; `llm = none` models a reranker
constructed without an LLM client (`_score_relevance` then returns the
input unchanged). -/
def rerank (cfg : RerankConfig) (llm : Option (ℕ → Option ℚ))
    (results : List RetrievalResult) (topK : Option ℕ) : List RetrievalResult :=
  if cfg.enabled = false ∨ results = [] then truncOpt topK results
  else
    let scored :=
      match llm with
      | none => results
      | some oracle => scoreRelevance oracle results
    let filtered := scored.filter (fun r => decide (cfg.relevanceThreshold ≤ r.score))
    let diverse := filterDiversity cfg.diversityThreshold filtered
    let limited := limitContext cfg.maxContextTokens diverse
    truncOpt topK limited

/-! ## Size invariant of the raw splitting stage (claim C1) -/

/-- The size bound claimed for a raw chunk: any chunk that did not absorb a
trailing remainder fits in the configured chunk size. -/
def SizeBounded (cfg : ChunkConfig) (rc : RawChunk) : Prop :=
  rc.absorbed = false → rc.text.length ≤ cfg.chunkSize

theorem sliceChunksFuel_mem_length_le (n : ℕ) :
    ∀ f : ℕ, ∀ l : List Char, ∀ sl ∈ sliceChunksFuel n f l, sl.length ≤ n := by
  intro f
  induction f with
  | zero => intro l sl h; simp [sliceChunksFuel] at h
  | succ f ih =>
    intro l sl h
    match l with
    | [] => simp [sliceChunksFuel] at h
    | c :: rest =>
      rw [sliceChunksFuel] at h
      rcases List.mem_cons.mp h with h1 | h1
      · subst h1; exact List.length_take_le n (c :: rest)
      · exact ih _ sl h1

theorem sliceChunks_mem_length_le (n : ℕ) (l : List Char) :
    ∀ sl ∈ sliceChunks n l, sl.length ≤ n :=
  sliceChunksFuel_mem_length_le n l.length l

theorem hardSplit_bound (cfg : ChunkConfig) (text sec : List Char) :
    ∀ rc ∈ hardSplit cfg text sec, SizeBounded cfg rc := by
  intro rc h _
  unfold hardSplit at h
  rcases List.mem_filterMap.mp h with ⟨sl, hsl, heq⟩
  split at heq
  · cases heq
    exact Nat.le_trans (pyStrip_length_le sl) (sliceChunks_mem_length_le _ _ _ hsl)
  · simp at heq

theorem mergeFinish_bound (cfg : ChunkConfig) (sep sec : List Char)
    (st : List RawChunk × List Char)
    (hc : ∀ rc ∈ st.1, SizeBounded cfg rc) (hcur : st.2.length ≤ cfg.chunkSize) :
    ∀ rc ∈ mergeFinish cfg sep sec st, SizeBounded cfg rc := by
  intro rc h
  unfold mergeFinish at h
  split at h
  · rcases List.mem_append.mp h with h1 | h1
    · exact hc rc h1
    · simp only [List.mem_singleton] at h1
      subst h1
      intro _
      exact Nat.le_trans (pyStrip_length_le st.2) hcur
  · split at h
    · rcases List.mem_append.mp h with h1 | h1
      · exact hc rc (List.dropLast_sublist st.1 |>.mem h1)
      · simp only [List.mem_singleton] at h1
        subst h1
        intro hfalse
        simp at hfalse
    · exact hc rc h

/-- The size invariant of the recursive splitter, proved for every fuel
value at once: every emitted chunk not marked `absorbed` fits in
`chunk_size`, and the accumulation buffer of the merge loop never exceeds
`chunk_size`. -/
theorem chunkInv (cfg : ChunkConfig) : ∀ fuel : ℕ,
    (∀ text sec, ∀ rc ∈ recursiveSplit cfg fuel text sec, SizeBounded cfg rc) ∧
    (∀ seps text sec, ∀ rc ∈ trySeparators cfg fuel seps text sec, SizeBounded cfg rc) ∧
    (∀ sep sec parts, ∀ rc ∈ mergeSplits cfg fuel sep sec parts, SizeBounded cfg rc) ∧
    (∀ sep sec parts st, (∀ rc ∈ st.1, SizeBounded cfg rc) → st.2.length ≤ cfg.chunkSize →
      (∀ rc ∈ (mergeLoop cfg fuel sep sec parts st).1, SizeBounded cfg rc) ∧
        (mergeLoop cfg fuel sep sec parts st).2.length ≤ cfg.chunkSize) := by
  intro fuel
  induction fuel with
  | zero =>
    refine ⟨?_, ?_, ?_, ?_⟩
    · intro text sec rc h; simp [recursiveSplit] at h
    · intro seps text sec rc h; simp [trySeparators] at h
    · intro sep sec parts rc h; simp [mergeSplits] at h
    · intro sep sec parts st h1 h2
      rcases parts with _ | ⟨p, rest⟩ <;> rcases st with ⟨a, b⟩ <;> exact ⟨h1, h2⟩
  | succ fuel ih =>
    obtain ⟨ihRS, ihTS, ihMS, ihML⟩ := ih
    have hRS : ∀ text sec, ∀ rc ∈ recursiveSplit cfg (fuel + 1) text sec, SizeBounded cfg rc := by
      intro text sec rc h
      rw [recursiveSplit] at h
      split at h
      · split at h
        · simp only [List.mem_singleton] at h
          subst h
          intro _
          assumption
        · simp at h
      · exact ihTS _ _ _ rc h
    have hML : ∀ sep sec parts st, (∀ rc ∈ st.1, SizeBounded cfg rc) →
        st.2.length ≤ cfg.chunkSize →
        (∀ rc ∈ (mergeLoop cfg (fuel + 1) sep sec parts st).1, SizeBounded cfg rc) ∧
          (mergeLoop cfg (fuel + 1) sep sec parts st).2.length ≤ cfg.chunkSize := by
      intro sep sec parts st h1 h2
      match parts, st with
      | [], st => exact ⟨h1, h2⟩
      | part :: rest, (chunks, cur) =>
        have hemit : ∀ rc ∈ mergeEmit cfg sec chunks cur, SizeBounded cfg rc := by
          intro rc hrc
          unfold mergeEmit at hrc
          split at hrc
          · rcases List.mem_append.mp hrc with hm | hm
            · exact h1 rc hm
            · simp only [List.mem_singleton] at hm
              subst hm
              intro _
              exact Nat.le_trans (pyStrip_length_le cur) h2
          · exact h1 rc hrc
        rw [mergeLoop]
        by_cases hT : (mergeTest sep cur part).length ≤ cfg.chunkSize
        · rw [if_pos hT]
          exact ihML sep sec rest (chunks, mergeTest sep cur part) h1 hT
        · rw [if_neg hT]
          by_cases hP : cfg.chunkSize < part.length
          · rw [if_pos hP]
            refine ihML sep sec rest (_, []) ?_ (show ([] : List Char).length ≤ cfg.chunkSize by simp)
            intro rc hrc
            rcases List.mem_append.mp hrc with hm | hm
            · exact hemit rc hm
            · exact ihRS _ _ rc hm
          · rw [if_neg hP]
            exact ihML sep sec rest (_, part) hemit (show part.length ≤ cfg.chunkSize by omega)
    have hMS : ∀ sep sec parts, ∀ rc ∈ mergeSplits cfg (fuel + 1) sep sec parts,
        SizeBounded cfg rc := by
      intro sep sec parts rc h
      rw [mergeSplits] at h
      have hinit : ∀ rc ∈ (([], []) : List RawChunk × List Char).1, SizeBounded cfg rc := by
        intro rc hrc; simp at hrc
      obtain ⟨hA, hB⟩ := ihML sep sec parts ([], []) hinit (by simp)
      exact mergeFinish_bound cfg sep sec _ hA hB rc h
    have hTS : ∀ seps text sec, ∀ rc ∈ trySeparators cfg (fuel + 1) seps text sec,
        SizeBounded cfg rc := by
      intro seps text sec rc h
      match seps with
      | [] =>
        rw [trySeparators] at h
        exact hardSplit_bound cfg text sec rc h
      | sep :: restSeps =>
        rw [trySeparators] at h
        simp only at h
        split at h
        · split at h
          · exact ihTS _ _ _ rc h
          · exact ihMS _ _ _ rc h
        · exact ihTS _ _ _ rc h
    exact ⟨hRS, hTS, hMS, hML⟩

theorem splitWithSections_bound (cfg : ChunkConfig) (fuel : ℕ) (text : List Char)
    (sections : List (List Char × ℕ × ℕ)) :
    ∀ rc ∈ splitWithSections cfg fuel text sections, SizeBounded cfg rc := by
  intro rc h
  unfold splitWithSections at h
  rcases List.mem_append.mp h with h1 | h1
  · rcases sections with _ | ⟨s, rest⟩
    · simp at h1
    · have h1' : rc ∈ (if 0 < s.2.1 ∧ pyStrip (text.take s.2.1) ≠ [] then
          recursiveSplit cfg fuel (pyStrip (text.take s.2.1)) ("preamble".toList)
        else []) := h1
      split at h1'
      · exact (chunkInv cfg fuel).1 _ _ rc h1'
      · simp at h1' 
  · rcases List.mem_flatten.mp h1 with ⟨l, hl, hm⟩
    rcases List.mem_map.mp hl with ⟨s, _, hs⟩
    subst hs
    split at hm
    · exact (chunkInv cfg fuel).1 _ _ rc hm
    · simp at hm

theorem rawSplitStage_bound (cfg : ChunkConfig) (text : List Char) :
    ∀ rc ∈ rawSplitStage cfg text, SizeBounded cfg rc := by
  intro rc h
  simp only [rawSplitStage] at h
  split at h <;> split at h <;>
    first
      | exact splitWithSections_bound cfg _ text _ rc h
      | exact (chunkInv cfg (chunkFuel text)).1 _ _ rc h

/-! ## Claim C1: chunk sizes at the raw splitting stage -/

theorem sliceChunksFuel_nil (n : ℕ) : ∀ f : ℕ, sliceChunksFuel n f [] = [] := by
  intro f; cases f <;> rfl

theorem sliceChunksFuel_exact (n : ℕ) (hn : 0 < n) :
    ∀ f : ℕ, ∀ l : List Char, ∀ i : ℕ, i + 1 < (sliceChunksFuel n f l).length →
      ((sliceChunksFuel n f l).getD i []).length = n := by
  intro f
  induction f with
  | zero => intro l i hi; simp [sliceChunksFuel] at hi
  | succ f ih =>
    intro l i hi
    match l with
    | [] => simp [sliceChunksFuel] at hi
    | c :: rest =>
      rw [sliceChunksFuel] at hi ⊢
      match i with
      | 0 =>
        rw [List.getD_cons_zero]
        have htail : sliceChunksFuel n f ((c :: rest).drop (max n 1)) ≠ [] := by
          intro he
          rw [List.length_cons, he] at hi
          simp at hi
        have hd : (c :: rest).drop (max n 1) ≠ [] := by
          intro he
          exact htail (he ▸ sliceChunksFuel_nil n f)
        have hlen : max n 1 < (c :: rest).length := by
          by_contra hcon
          push_neg at hcon
          exact hd (List.drop_eq_nil_of_le hcon)
        have hn2 : n ≤ (c :: rest).length := le_trans (le_max_left n 1) (le_of_lt hlen)
        rw [List.length_cons] at hn2
        simp [List.length_take]
        omega
      | i + 1 =>
        rw [List.getD_cons_succ]
        apply ih
        rw [List.length_cons] at hi
        omega

/-- C1 (corrected): for every configuration and input text, every chunk
emitted by the raw splitting stage that did not absorb a below-minimum
trailing remainder — hard-split chunks included — has text length at most
the configured chunk size; and the hard-split fallback's slices are exactly
`chunk_size` characters (before whitespace stripping) except possibly the
last. The original claim's unconditional bound fails for a chunk that
absorbed a below-minimum trailing remainder (see the counterexample). -/
theorem c1_rawSplit_size (cfg : ChunkConfig) (text : List Char) (n : ℕ)
    (t : List Char) (hn : 0 < n) :
    (∀ rc ∈ rawSplitStage cfg text, rc.absorbed = false → rc.text.length ≤ cfg.chunkSize) ∧
    (∀ i : ℕ, i + 1 < (sliceChunks n t).length → ((sliceChunks n t).getD i []).length = n) :=
  ⟨rawSplitStage_bound cfg text, fun i hi => sliceChunksFuel_exact n hn t.length t i hi⟩

set_option maxRecDepth 10000 in
theorem c1_witness :
    (0 < 3 ∧
      (∀ rc ∈ rawSplitStage ⟨10, 20, 5, true⟩ ("hello there world".toList),
        rc.absorbed = false → rc.text.length ≤ 10)) ∧
    ((sliceChunks 3 ("abcdefg".toList)).getD 0 []).length = 3 :=
  ⟨⟨by decide,
    (c1_rawSplit_size ⟨10, 20, 5, true⟩ ("hello there world".toList) 3
      ("abcdefg".toList) (by decide)).1⟩,
   (c1_rawSplit_size ⟨10, 20, 5, true⟩ ("hello there world".toList) 3
      ("abcdefg".toList) (by decide)).2 0 (by decide)⟩

set_option maxRecDepth 10000 in
/-- C1 counterexample: with chunk_size 10 ≥ min_chunk_size 5 and the
non-empty text "abcdefghij xy", the raw splitting stage (merge path, not
the hard-split fallback) emits a single chunk of length 13 > 10: the
below-minimum remainder "xy" was appended to the previous chunk. -/
theorem c1_counterexample :
    (5 ≤ 10 ∧ pyStrip ("abcdefghij xy".toList) ≠ []) ∧
    rawSplitStage ⟨10, 20, 5, true⟩ ("abcdefghij xy".toList) =
      [⟨"abcdefghij xy".toList, "body".toList, true⟩] ∧
    ¬ (("abcdefghij xy".toList).length ≤ 10) := by decide

/-! ## Claim C6: fate of below-minimum buffers in the merge stage -/

/-- C6 (corrected): during merge-based splitting, the FINAL accumulated
buffer below the minimum chunk size is appended to the previous emitted
chunk when one exists; but an accumulated buffer below the minimum that is
flushed mid-run (because the next part would overflow the chunk) is
silently discarded — it is neither emitted nor appended, so its text is
lost (see the counterexample). -/
theorem c6_small_remainder (cfg : ChunkConfig) (sep sec cur : List Char)
    (chunks : List RawChunk) (st : List RawChunk × List Char)
    (h1 : st.2 ≠ []) (h2 : (pyStrip st.2).length < cfg.minChunkSize)
    (h3 : st.1 ≠ []) (_h4 : cur ≠ []) (h5 : cur.length < cfg.minChunkSize) :
    mergeFinish cfg sep sec st =
      st.1.dropLast ++ [⟨(st.1.getLastD default).text ++ sep ++ pyStrip st.2,
        (st.1.getLastD default).sec, true⟩] ∧
    mergeEmit cfg sec chunks cur = chunks := by
  constructor
  · unfold mergeFinish
    rw [if_neg, if_pos ⟨h1, h3⟩]
    rintro ⟨-, hc⟩
    omega
  · unfold mergeEmit
    rw [if_neg]
    rintro ⟨-, hc⟩
    omega

theorem c6_witness :
    mergeFinish ⟨10, 20, 5, true⟩ [' '] ("body".toList)
        ([⟨"abcdefghij".toList, "body".toList, false⟩], "xy".toList) =
      ([⟨"abcdefghij".toList, "body".toList, false⟩] : List RawChunk).dropLast ++
        [⟨(([⟨"abcdefghij".toList, "body".toList, false⟩] : List RawChunk).getLastD default).text
            ++ [' '] ++ pyStrip ("xy".toList),
          (([⟨"abcdefghij".toList, "body".toList, false⟩] : List RawChunk).getLastD default).sec,
          true⟩] ∧
    mergeEmit ⟨10, 20, 5, true⟩ ("body".toList) [] ("ab".toList) = [] :=
  c6_small_remainder ⟨10, 20, 5, true⟩ [' '] ("body".toList) ("ab".toList) []
    ([⟨"abcdefghij".toList, "body".toList, false⟩], "xy".toList)
    (by decide) (by decide) (by decide) (by decide) (by decide)

set_option maxRecDepth 10000 in
/-- C6 counterexample: chunking "ab cdefghijk" with chunk_size 10 and
min_chunk_size 5 flushes the below-minimum buffer "ab" mid-run and discards
it: the run emits another chunk (so "ab" is not the only chunk), yet no
emitted chunk contains the letter 'a'. -/
theorem c6_counterexample :
    rawSplitStage ⟨10, 20, 5, true⟩ ("ab cdefghijk".toList) =
      [⟨"cdefghijk".toList, "body".toList, false⟩] ∧
    'a' ∈ ("ab cdefghijk".toList) ∧
    (∀ rc ∈ rawSplitStage ⟨10, 20, 5, true⟩ ("ab cdefghijk".toList), 'a' ∉ rc.text) := by
  decide

/-! ## Claim C5: overlap bookkeeping bounds -/

theorem lastSlice_length_le (n : ℕ) (l : List Char) : (lastSlice n l).length ≤ l.length := by
  unfold lastSlice
  split
  · exact le_refl _
  · simp [List.length_drop]

theorem overlapContent_length_le (cfg : ChunkConfig) (t : List Char) :
    (overlapContent cfg t).length ≤ t.length := by
  unfold overlapContent
  split
  · exact lastSlice_length_le _ _
  · exact le_refl _

theorem prependOverlap_fst_length (cfg : ChunkConfig)
    (chunks : List (List Char × List Char)) (i : ℕ) :
    (chunks.getD i ([], [])).1.length ≤ (prependOverlap cfg chunks i).1.length := by
  unfold prependOverlap
  split
  · split
    · exact le_refl _
    · simp [List.length_append]
      omega
  · exact le_refl _

theorem prependOverlap_snd_le (cfg : ChunkConfig)
    (chunks : List (List Char × List Char)) (i : ℕ) (hi : 0 < i) :
    (prependOverlap cfg chunks i).2 ≤ (chunks.getD (i - 1) ([], [])).1.length := by
  unfold prependOverlap
  rw [if_pos hi]
  split
  · simp
  · exact overlapContent_length_le cfg _

theorem nextOverlapLen_le (cfg : ChunkConfig)
    (chunks : List (List Char × List Char)) (i : ℕ) :
    nextOverlapLen cfg chunks i ≤ (chunks.getD i ([], [])).1.length := by
  unfold nextOverlapLen
  split
  · exact overlapContent_length_le cfg _
  · simp

theorem applyOverlap_length (cfg : ChunkConfig) (chunks : List (List Char × List Char)) :
    (applyOverlap cfg chunks).length = chunks.length := by
  simp [applyOverlap]

theorem applyOverlap_getD (cfg : ChunkConfig) (chunks : List (List Char × List Char))
    (i : ℕ) (hi : i < chunks.length) (d : List Char × List Char × ℕ × ℕ) :
    (applyOverlap cfg chunks).getD i d =
      ((prependOverlap cfg chunks i).1, (chunks.getD i ([], [])).2,
        (prependOverlap cfg chunks i).2, nextOverlapLen cfg chunks i) := by
  have hlen : i < (applyOverlap cfg chunks).length := by
    rw [applyOverlap_length]; exact hi
  rw [List.getD_eq_getElem _ _ hlen]
  unfold applyOverlap
  rw [List.getElem_map, List.getElem_range]

theorem createChunks_length (rand : ℕ → List Char) (src : List Char)
    (l : List (List Char × List Char × ℕ × ℕ)) :
    (createChunks rand src l).length = l.length := by
  simp [createChunks]

theorem createChunks_getD (rand : ℕ → List Char) (src : List Char)
    (l : List (List Char × List Char × ℕ × ℕ)) (i : ℕ) (hi : i < l.length) :
    (createChunks rand src l).getD i default =
      { id := src ++ ['_'] ++ (l.getD i ([], [], 0, 0)).2.1 ++ ['_'] ++ natDigits i ++
          ['_'] ++ rand i
        text := (l.getD i ([], [], 0, 0)).1
        metadata :=
          { source := src
            page := 0
            sectionLabel := (l.getD i ([], [], 0, 0)).2.1
            chunkIndex := i
            parentChunkId := none
            overlapWithPrev := (l.getD i ([], [], 0, 0)).2.2.1
            overlapWithNext := (l.getD i ([], [], 0, 0)).2.2.2
            semanticTags := [] } } := by
  have hlen : i < (createChunks rand src l).length := by
    rw [createChunks_length]; exact hi
  rw [List.getD_eq_getElem _ _ hlen]
  unfold createChunks
  rw [List.getElem_map, List.getElem_enum]
  rw [List.getD_eq_getElem _ _ hi]

/-- C5 (corrected): in every chunking run, a chunk's recorded
`overlap_with_prev` never exceeds the previous chunk's full text length,
and its `overlap_with_next` never exceeds the chunk's own pre-overlap text
length — the text the raw splitting stage emitted for it, before any
prepend — because the code derives it from the current chunk's text, not
the next chunk's. The claimed half-length bounds fail in both directions
(see the counterexample). -/
theorem c5_overlap_bounds (cfg : ChunkConfig) (rand : ℕ → List Char)
    (text src : List Char) (i : ℕ) :
    (i + 1 < (semanticChunk cfg rand text src).length →
      ((semanticChunk cfg rand text src).getD (i + 1) default).metadata.overlapWithPrev ≤
        ((semanticChunk cfg rand text src).getD i default).text.length) ∧
    (i < (semanticChunk cfg rand text src).length →
      ((semanticChunk cfg rand text src).getD i default).metadata.overlapWithNext ≤
        (((rawSplitStage cfg text).map (fun rc => rc.text)).getD i []).length) := by
  unfold semanticChunk
  split
  · simp
  · set m := (rawSplitStage cfg text).map (fun rc => (rc.text, rc.sec)) with hm
    have hlen : ∀ j : ℕ, j < (createChunks rand src (applyOverlap cfg m)).length ↔
        j < m.length := by
      intro j
      rw [createChunks_length, applyOverlap_length]
    constructor
    · intro hi
      have hi1 : i + 1 < m.length := (hlen (i + 1)).mp hi
      have hi0 : i < m.length := by omega
      have hia1 : i + 1 < (applyOverlap cfg m).length := by rw [applyOverlap_length]; exact hi1
      have hia0 : i < (applyOverlap cfg m).length := by rw [applyOverlap_length]; exact hi0
      rw [createChunks_getD rand src _ (i + 1) hia1, createChunks_getD rand src _ i hia0]
      simp only
      rw [applyOverlap_getD cfg m (i + 1) hi1, applyOverlap_getD cfg m i hi0]
      simp only
      calc (prependOverlap cfg m (i + 1)).2
          ≤ (m.getD i ([], [])).1.length := by
            have := prependOverlap_snd_le cfg m (i + 1) (by omega)
            simpa using this
        _ ≤ (prependOverlap cfg m i).1.length := prependOverlap_fst_length cfg m i
    · intro hi
      have hi0 : i < m.length := (hlen i).mp hi
      have hia0 : i < (applyOverlap cfg m).length := by rw [applyOverlap_length]; exact hi0
      rw [createChunks_getD rand src _ i hia0]
      simp only
      rw [applyOverlap_getD cfg m i hi0]
      simp only
      have hraw : i < (rawSplitStage cfg text).length := by
        have hm2 : m.length = (rawSplitStage cfg text).length := by
          rw [hm, List.length_map]
        omega
      have hrawm : i < ((rawSplitStage cfg text).map (fun rc => rc.text)).length := by
        rw [List.length_map]; exact hraw
      have heq : (m.getD i ([], [])).1 =
          ((rawSplitStage cfg text).map (fun rc => rc.text)).getD i [] := by
        rw [hm, List.getD_eq_getElem _ _ (by rw [List.length_map]; exact hraw),
          List.getD_eq_getElem _ _ hrawm, List.getElem_map, List.getElem_map]
      rw [← heq]
      exact nextOverlapLen_le cfg m i

set_option maxRecDepth 10000 in
theorem c5_witness :
    ((0 + 1 < (semanticChunk ⟨10, 40, 2, true⟩ (fun _ => []) ("abcdef ghijkl".toList)
        ("src".toList)).length) ∧
      ((semanticChunk ⟨10, 40, 2, true⟩ (fun _ => []) ("abcdef ghijkl".toList)
          ("src".toList)).getD (0 + 1) default).metadata.overlapWithPrev ≤
        ((semanticChunk ⟨10, 40, 2, true⟩ (fun _ => []) ("abcdef ghijkl".toList)
          ("src".toList)).getD 0 default).text.length) ∧
    ((semanticChunk ⟨10, 40, 2, true⟩ (fun _ => []) ("abcdef ghijkl".toList)
        ("src".toList)).getD 0 default).metadata.overlapWithNext ≤
      (((rawSplitStage ⟨10, 40, 2, true⟩ ("abcdef ghijkl".toList)).map
        (fun rc => rc.text)).getD 0 []).length :=
  ⟨⟨by decide,
    (c5_overlap_bounds ⟨10, 40, 2, true⟩ (fun _ => []) ("abcdef ghijkl".toList)
      ("src".toList) 0).1 (by decide)⟩,
   (c5_overlap_bounds ⟨10, 40, 2, true⟩ (fun _ => []) ("abcdef ghijkl".toList)
      ("src".toList) 0).2 (by decide)⟩

set_option maxRecDepth 10000 in
/-- C5 counterexample, both directions. Chunking "abcdef ghijkl" with
chunk_size 10, overlap_percent 40, min_chunk_size 2: the second chunk
records `overlap_with_prev` 4 while the first chunk's text has length 6,
and 4 exceeds half of 6. Chunking "abcdefghi jklmn" with chunk_size 10,
overlap_percent 80, min_chunk_size 2: the first chunk records
`overlap_with_next` 8 while the next chunk's text has length 14 as emitted
(5 before the overlap prepend), and 8 exceeds half of either — so neither
half-length bound of the claim holds. -/
theorem c5_counterexample :
    (((semanticChunk ⟨10, 40, 2, true⟩ (fun _ => []) ("abcdef ghijkl".toList)
        ("src".toList)).getD 1 default).metadata.overlapWithPrev = 4 ∧
      ((semanticChunk ⟨10, 40, 2, true⟩ (fun _ => []) ("abcdef ghijkl".toList)
        ("src".toList)).getD 0 default).text.length = 6 ∧
      ¬ (2 * 4 ≤ 6)) ∧
    (((semanticChunk ⟨10, 80, 2, true⟩ (fun _ => []) ("abcdefghi jklmn".toList)
        ("src".toList)).getD 0 default).metadata.overlapWithNext = 8 ∧
      ((semanticChunk ⟨10, 80, 2, true⟩ (fun _ => []) ("abcdefghi jklmn".toList)
        ("src".toList)).getD 1 default).text.length = 14 ∧
      (((rawSplitStage ⟨10, 80, 2, true⟩ ("abcdefghi jklmn".toList)).map
        (fun rc => rc.text)).getD 1 []).length = 5 ∧
      ¬ (2 * 8 ≤ 14) ∧ ¬ (2 * 8 ≤ 5)) := by decide

/-! ## Claim C8: determinism of hierarchical ids -/

/-- The chunker's output, with ids erased, does not depend on the random
id component. -/
theorem semanticChunk_textMeta_rand (cfg : ChunkConfig) (r1 r2 : ℕ → List Char)
    (text src : List Char) :
    (semanticChunk cfg r1 text src).map (fun c => (c.text, c.metadata)) =
      (semanticChunk cfg r2 text src).map (fun c => (c.text, c.metadata)) := by
  unfold semanticChunk
  split
  · rfl
  · unfold createChunks
    rw [List.map_map, List.map_map]
    rfl

theorem enrichChunk_id_congr (ecfg : EnricherConfig) (md5hex : List Char → List Char)
    (pm : Option PdfMeta) (i : ℕ) (c c2 : ChunkRec)
    (h : ecfg.hierarchicalIds = true) (ht : c.text = c2.text)
    (hm : c.metadata = c2.metadata) :
    (enrichChunk ecfg md5hex pm c i).id = (enrichChunk ecfg md5hex pm c2 i).id := by
  simp only [enrichChunk, correctedSection, h, if_true, ht, hm]

theorem enrichList_map_id (ecfg : EnricherConfig) (md5hex : List Char → List Char)
    (pm : Option PdfMeta) (h : ecfg.hierarchicalIds = true) :
    ∀ (l1 l2 : List ChunkRec) (i : ℕ),
      l1.map (fun c => (c.text, c.metadata)) = l2.map (fun c => (c.text, c.metadata)) →
      (enrichList ecfg md5hex pm l1 i).map (fun c => c.id) =
        (enrichList ecfg md5hex pm l2 i).map (fun c => c.id) := by
  intro l1
  induction l1 with
  | nil =>
    intro l2 i he
    match l2 with
    | [] => rfl
    | c2 :: rest2 => simp at he
  | cons c rest ih =>
    intro l2 i he
    match l2 with
    | [] => simp at he
    | c2 :: rest2 =>
      simp only [List.map_cons, List.cons.injEq, Prod.mk.injEq] at he
      obtain ⟨⟨ht, hm⟩, hrest⟩ := he
      simp only [enrichList, List.map_cons]
      rw [enrichChunk_id_congr ecfg md5hex pm i c c2 h ht hm, ih rest2 (i + 1) hrest]

theorem assignParentsLoop_map_id :
    ∀ (l : List ChunkRec) (seen : List (List Char × List Char)),
      (assignParentsLoop l seen).map (fun c => c.id) = l.map (fun c => c.id) := by
  intro l
  induction l with
  | nil => intro seen; rfl
  | cons c rest ih =>
    intro seen
    unfold assignParentsLoop
    split <;> simp [ih]

theorem enrich_map_id_congr (ecfg : EnricherConfig) (md5hex : List Char → List Char)
    (pm : Option PdfMeta) (h : ecfg.hierarchicalIds = true) (l1 l2 : List ChunkRec)
    (he : l1.map (fun c => (c.text, c.metadata)) = l2.map (fun c => (c.text, c.metadata))) :
    (enrich ecfg md5hex l1 pm).map (fun c => c.id) =
      (enrich ecfg md5hex l2 pm).map (fun c => c.id) := by
  have hlen : l1.length = l2.length := by
    have := congrArg List.length he
    simpa using this
  unfold enrich
  by_cases h1 : l1 = []
  · have h2 : l2 = [] := by
      cases l2
      · rfl
      · subst h1; simp at hlen
    rw [if_pos h1, if_pos h2]
  · have h2 : l2 ≠ [] := by
      intro hc
      subst hc
      simp at hlen
      exact h1 hlen
    rw [if_neg h1, if_neg h2, h]
    simp only [if_true]
    rw [assignParentsLoop_map_id, assignParentsLoop_map_id]
    exact enrichList_map_id ecfg md5hex pm h l1 l2 0 he

/-- C8 (confirmed): with hierarchical ids enabled, chunking and enriching
identical text with identical configuration yields identical chunk ids in
two runs, whatever random id tokens the chunker drew and whatever hash
function the enricher composes them from: the enriched id is a function of
source, corrected section, chunk index and chunk text only. -/
theorem c8_hierarchical_id_deterministic (ccfg : ChunkConfig) (ecfg : EnricherConfig)
    (md5hex : List Char → List Char) (pm : Option PdfMeta) (text src : List Char)
    (r1 r2 : ℕ → List Char) (h : ecfg.hierarchicalIds = true) :
    (enrich ecfg md5hex (semanticChunk ccfg r1 text src) pm).map (fun c => c.id) =
      (enrich ecfg md5hex (semanticChunk ccfg r2 text src) pm).map (fun c => c.id) :=
  enrich_map_id_congr ecfg md5hex pm h _ _ (semanticChunk_textMeta_rand ccfg r1 r2 text src)

set_option maxRecDepth 10000 in
theorem c8_witness :
    defaultEnricherConfig.hierarchicalIds = true ∧
    (enrich defaultEnricherConfig (fun s => s ++ "HASH".toList)
        (semanticChunk ⟨10, 20, 2, true⟩ (fun i => natDigits i)
          ("Abstract\nhello world".toList) ("doc".toList)) none).map (fun c => c.id) =
      (enrich defaultEnricherConfig (fun s => s ++ "HASH".toList)
        (semanticChunk ⟨10, 20, 2, true⟩ (fun i => 'z' :: natDigits i)
          ("Abstract\nhello world".toList) ("doc".toList)) none).map (fun c => c.id) :=
  ⟨by decide,
   c8_hierarchical_id_deterministic ⟨10, 20, 2, true⟩ defaultEnricherConfig
     (fun s => s ++ "HASH".toList) none ("Abstract\nhello world".toList) ("doc".toList)
     (fun i => natDigits i) (fun i => 'z' :: natDigits i) (by decide)⟩

/-! ## Claim C7: page assignment -/

/-- C7 (code bug): with a page map sending offset 0 to page 1 and offset
100 to page 2, and the chunk's recorded start offset 150, `_extract_page_number` returns page 1 — the page
of the LOWEST boundary not exceeding the offset, because the loop scans
`sorted(page_map.items())` in ascending order and returns on the first
satisfying entry — while the documented rule, "take the highest page
boundary not exceeding the offset", gives page 2. -/
theorem c7_page_lookup_bug :
    extractPageNumber ⟨[(0, 1), (100, 2)], [("c1".toList, 150)]⟩
        ⟨"c1".toList, "some text".toList, default⟩ = 1 ∧
    pageBySpec ⟨[(0, 1), (100, 2)], [("c1".toList, 150)]⟩
        ⟨"c1".toList, "some text".toList, default⟩ = 2 := by decide

/-! ## Claim C3: BM25 search contract -/

/-- C3 (confirmed): the ranked pair list underlying `search` keeps only
strictly positive scores, is sorted by descending score with ties broken by
ascending original chunk index (the stable sort), search on an unbuilt or
empty index returns `[]`, and on a non-empty built index the returned
result scores are exactly the ranked positive scores in order. -/
theorem c3_bm25_search (chunks : List ChunkRec) (scores : List ℚ) (topK : ℕ) :
    (∀ p ∈ bm25Ranking scores topK, 0 < p.2) ∧
    List.Pairwise scoreDescIdxAsc (bm25Ranking scores topK) ∧
    bm25Search bm25Init scores topK = [] ∧
    bm25Search (buildIndex []) scores topK = [] ∧
    (chunks ≠ [] →
      (bm25Search (buildIndex chunks) scores topK).map (fun r => r.score) =
        (bm25Ranking scores topK).map (fun p => p.2)) := by
  refine ⟨?_, ?_, ?_, ?_, ?_⟩
  · intro p hp
    have := List.of_mem_filter hp
    exact of_decide_eq_true this
  · have hs : List.Pairwise scoreDescIdxAsc (scores.enum.insertionSort scoreDescIdxAsc) :=
      List.sorted_insertionSort scoreDescIdxAsc scores.enum
    exact hs.sublist ((List.filter_sublist _).trans (List.take_sublist _ _))
  · simp [bm25Search, bm25Init]
  · simp [bm25Search, buildIndex]
  · intro hne
    unfold bm25Search buildIndex
    rw [if_neg hne]
    rw [if_neg ?hcond]
    case hcond =>
      rintro (hc | hc)
      · exact Bool.true_eq_false ▸ hc
      · exact hne hc
    rw [List.map_map]
    rfl

set_option maxRecDepth 10000 in
theorem c3_witness :
    (0 : ℚ) < ((0, 5/2) : ℕ × ℚ).2 ∧
    ([⟨"A".toList, "tA".toList, default⟩] : List ChunkRec) ≠ [] ∧
    (bm25Search (buildIndex [⟨"A".toList, "tA".toList, default⟩]) [5/2] 3).map
        (fun r => r.score) =
      (bm25Ranking [5/2] 3).map (fun p => p.2) :=
  ⟨(c3_bm25_search [⟨"A".toList, "tA".toList, default⟩] [5/2] 3).1 (0, 5/2)
     (by with_unfolding_all decide),
   by decide,
   (c3_bm25_search [⟨"A".toList, "tA".toList, default⟩] [5/2] 3).2.2.2.2 (by decide)⟩

/-! ## Claim C2: RRF rank-0 dominance -/

theorem contribAux_nonneg (w k : ℚ) (c : List Char) (hw : 0 ≤ w) (hk : 0 ≤ k) :
    ∀ (l : List (List Char)) (r : ℕ), 0 ≤ contribAux w k c l r := by
  intro l
  induction l with
  | nil => intro r; simp [contribAux]
  | cons a rest ih =>
    intro r
    unfold contribAux
    have hd : (0 : ℚ) < k + (r : ℚ) + 1 := by positivity
    refine add_nonneg ?_ (ih (r + 1))
    split
    · exact div_nonneg hw (le_of_lt hd)
    · exact le_refl 0

theorem contribAux_not_mem (w k : ℚ) (c : List Char) :
    ∀ (l : List (List Char)) (r : ℕ), c ∉ l → contribAux w k c l r = 0 := by
  intro l
  induction l with
  | nil => intro r _; rfl
  | cons a rest ih =>
    intro r hcm
    unfold contribAux
    rw [if_neg (by intro he; exact hcm (he ▸ List.mem_cons_self a rest)),
      ih (r + 1) (fun hm => hcm (List.mem_cons_of_mem a hm))]
    ring

theorem contribAux_head_le (w k : ℚ) (c : List Char) (hw : 0 ≤ w) (hk : 0 ≤ k)
    (rest : List (List Char)) (r : ℕ) :
    w / (k + (r : ℚ) + 1) ≤ contribAux w k c (c :: rest) r := by
  unfold contribAux
  rw [if_pos rfl]
  have := contribAux_nonneg w k c hw hk rest (r + 1)
  linarith

theorem contribAux_head_nodup_eq (w k : ℚ) (c : List Char) (rest : List (List Char))
    (r : ℕ) (hnd : (c :: rest).Nodup) :
    contribAux w k c (c :: rest) r = w / (k + (r : ℚ) + 1) := by
  unfold contribAux
  rw [if_pos rfl, contribAux_not_mem w k c rest (r + 1) (List.nodup_cons.mp hnd).1]
  ring

theorem contribAux_nodup_le (w k : ℚ) (c : List Char) (hw : 0 ≤ w) (hk : 0 ≤ k) :
    ∀ (l : List (List Char)) (r : ℕ), l.Nodup → contribAux w k c l r ≤ w / (k + (r : ℚ) + 1) := by
  intro l
  induction l with
  | nil =>
    intro r _
    unfold contribAux
    positivity
  | cons a rest ih =>
    intro r hnd
    rcases List.nodup_cons.mp hnd with ⟨hna, hnd2⟩
    by_cases hac : a = c
    · subst hac
      rw [contribAux_head_nodup_eq w k a rest r hnd]
    · unfold contribAux
      rw [if_neg hac]
      have h1 := ih (r + 1) hnd2
      have h2 : w / (k + ((r : ℚ) + 1) + 1) ≤ w / (k + (r : ℚ) + 1) := by
        apply div_le_div_of_nonneg_left hw (by positivity)
        linarith
      push_cast at h1
      linarith

theorem contribAux_head_ne_lt (w k : ℚ) (c : List Char) (hw : 0 < w) (hk : 0 ≤ k)
    (l : List (List Char)) (r : ℕ) (hnd : l.Nodup) (hhead : l.head? ≠ some c) :
    contribAux w k c l r < w / (k + (r : ℚ) + 1) := by
  match l with
  | [] =>
    unfold contribAux
    positivity
  | a :: rest =>
    have hac : a ≠ c := by
      intro he
      exact hhead (by rw [List.head?_cons, he])
    unfold contribAux
    rw [if_neg hac]
    have h1 := contribAux_nodup_le w k c (le_of_lt hw) hk rest (r + 1)
      (List.nodup_cons.mp hnd).2
    have h2 : w / (k + ((r : ℚ) + 1) + 1) < w / (k + (r : ℚ) + 1) := by
      apply div_lt_div_of_pos_left hw (by positivity)
      linarith
    push_cast at h1
    linarith

/-- C2 (corrected): for any non-negative `rrf_k`, strictly positive weights,
and duplicate-free ranked lists, a chunk at rank 0 in both lists of one
fusion receives a strictly higher fused score than a chunk at rank 0 in
exactly one list of any fusion with the same parameters. The original
claim's "any rrf_k" fails for negative `rrf_k` (see the counterexample). -/
theorem c2_rrf_rank0 (wB wV k : ℚ) (B1 V1 B2 V2 : List RetrievalResult)
    (x y : List Char) (hwB : 0 < wB) (hwV : 0 < wV) (hk : 0 ≤ k)
    (hndB : (B2.map (fun r => r.chunkId)).Nodup)
    (hndV : (V2.map (fun r => r.chunkId)).Nodup)
    (hxB : (B1.map (fun r => r.chunkId)).head? = some x)
    (hxV : (V1.map (fun r => r.chunkId)).head? = some x)
    (hy : ((B2.map (fun r => r.chunkId)).head? = some y ∧
            (V2.map (fun r => r.chunkId)).head? ≠ some y) ∨
          ((V2.map (fun r => r.chunkId)).head? = some y ∧
            (B2.map (fun r => r.chunkId)).head? ≠ some y)) :
    rrfScore wB wV k B2 V2 y < rrfScore wB wV k B1 V1 x := by
  have hcast : ((0 : ℕ) : ℚ) = 0 := by norm_num
  have hxB2 : wB / (k + 1) ≤ contribAux wB k x (B1.map (fun r => r.chunkId)) 0 := by
    match hB : B1.map (fun r => r.chunkId) with
    | [] => rw [hB] at hxB; simp at hxB
    | b :: rest =>
      rw [hB, List.head?_cons, Option.some.injEq] at hxB
      subst hxB
      rw [hB]
      have h3 := contribAux_head_le wB k b (le_of_lt hwB) hk rest 0
      rw [hcast, add_zero] at h3
      exact h3
  have hxV2 : wV / (k + 1) ≤ contribAux wV k x (V1.map (fun r => r.chunkId)) 0 := by
    match hV : V1.map (fun r => r.chunkId) with
    | [] => rw [hV] at hxV; simp at hxV
    | b :: rest =>
      rw [hV, List.head?_cons, Option.some.injEq] at hxV
      subst hxV
      rw [hV]
      have h3 := contribAux_head_le wV k b (le_of_lt hwV) hk rest 0
      rw [hcast, add_zero] at h3
      exact h3
  have hhead_eq : ∀ (w : ℚ) (L : List (List Char)), 0 < w → L.Nodup →
      L.head? = some y → contribAux w k y L 0 = w / (k + 1) := by
    intro w L hw hnd hh
    match L with
    | [] => simp at hh
    | b :: rest =>
      rw [List.head?_cons, Option.some.injEq] at hh
      subst hh
      have h3 := contribAux_head_nodup_eq w k b rest 0 hnd
      rw [hcast, add_zero] at h3
      exact h3
  have hhead_lt : ∀ (w : ℚ) (L : List (List Char)), 0 < w → L.Nodup →
      L.head? ≠ some y → contribAux w k y L 0 < w / (k + 1) := by
    intro w L hw hnd hh
    have h3 := contribAux_head_ne_lt w k y hw hk L 0 hnd hh
    rw [hcast, add_zero] at h3
    exact h3
  have hsum : rrfScore wB wV k B2 V2 y < wB / (k + 1) + wV / (k + 1) := by
    unfold rrfScore
    rcases hy with ⟨hyB, hyV⟩ | ⟨hyV, hyB⟩
    · rw [hhead_eq wB _ hwB hndB hyB]
      have := hhead_lt wV _ hwV hndV hyV
      linarith
    · rw [hhead_eq wV _ hwV hndV hyV]
      have := hhead_lt wB _ hwB hndB hyB
      linarith
  have hx : wB / (k + 1) + wV / (k + 1) ≤ rrfScore wB wV k B1 V1 x := by
    unfold rrfScore
    linarith
  linarith

theorem c2_witness :
    rrfScore (3/10) (7/10) 60 [⟨"C".toList, [], 1, [], []⟩] [] ("C".toList) <
      rrfScore (3/10) (7/10) 60 [⟨"A".toList, [], 1, [], []⟩]
        [⟨"A".toList, [], 1, [], []⟩] ("A".toList) :=
  c2_rrf_rank0 (3/10) (7/10) 60 [⟨"A".toList, [], 1, [], []⟩]
    [⟨"A".toList, [], 1, [], []⟩] [⟨"C".toList, [], 1, [], []⟩] []
    ("A".toList) ("C".toList)
    (by norm_num) (by norm_num) (by norm_num)
    (by decide) (by decide) (by decide) (by decide)
    (Or.inl ⟨by decide, by decide⟩)

set_option maxRecDepth 10000 in
/-- C2 counterexample: at rrf_k = -2 (an integer the configuration type
admits) with both weights 1, a chunk at rank 0 in both lists receives fused
score -2 while a chunk at rank 0 in only the BM25 list receives -1: the
both-lists chunk scores strictly LOWER, refuting the claim for arbitrary
`rrf_k`. -/
theorem c2_counterexample :
    (0 : ℚ) < 1 ∧
    (([⟨"A".toList, [], 1, [], []⟩] : List RetrievalResult).map
      (fun r => r.chunkId)).head? = some ("A".toList) ∧
    (([⟨"C".toList, [], 1, [], []⟩] : List RetrievalResult).map
      (fun r => r.chunkId)).head? = some ("C".toList) ∧
    rrfScore 1 1 (-2) [⟨"A".toList, [], 1, [], []⟩]
      [⟨"A".toList, [], 1, [], []⟩] ("A".toList) = -2 ∧
    rrfScore 1 1 (-2) [⟨"C".toList, [], 1, [], []⟩] [] ("C".toList) = -1 ∧
    ¬ (rrfScore 1 1 (-2) [⟨"C".toList, [], 1, [], []⟩] [] ("C".toList) <
        rrfScore 1 1 (-2) [⟨"A".toList, [], 1, [], []⟩]
          [⟨"A".toList, [], 1, [], []⟩] ("A".toList)) := by
  with_unfolding_all decide

/-! ## Claim C4: default rerank of default-weight RRF output is empty -/

theorem rrfFusion_score_mem (wB wV k : ℚ) (B V : List RetrievalResult)
    (r : RetrievalResult) (hr : r ∈ rrfFusion wB wV k B V) :
    ∃ c : List Char, r.score = rrfScore wB wV k B V c := by
  unfold rrfFusion at hr
  rcases List.mem_map.mp hr with ⟨c, _, hc⟩
  exact ⟨c, by rw [← hc]⟩

theorem rrfScore_defaults_le (B V : List RetrievalResult) (c : List Char)
    (hndB : (B.map (fun r => r.chunkId)).Nodup)
    (hndV : (V.map (fun r => r.chunkId)).Nodup) :
    rrfScore (3/10) (7/10) 60 B V c ≤ 1/61 := by
  have h1 := contribAux_nodup_le (3/10) 60 c (by norm_num) (by norm_num)
    (B.map (fun r => r.chunkId)) 0 hndB
  have h2 := contribAux_nodup_le (7/10) 60 c (by norm_num) (by norm_num)
    (V.map (fun r => r.chunkId)) 0 hndV
  unfold rrfScore
  push_cast at h1 h2
  have e1 : (3/10 : ℚ) / (60 + 0 + 1) = 3/610 := by norm_num
  have e2 : (7/10 : ℚ) / (60 + 0 + 1) = 7/610 := by norm_num
  rw [e1] at h1
  rw [e2] at h2
  linarith

/-- C4 (confirmed): a reranker with no LLM client and the default
configuration maps any non-empty RRF-fused result list (default weights
0.3/0.7, rrf_k 60, duplicate-free input lists — so every fused score is at
most 1/61 < 0.5) to the empty list: scores are left unchanged and the
relevance-threshold filter removes every candidate. -/
theorem c4_rerank_default_empty (B V : List RetrievalResult) (topK : Option ℕ)
    (hndB : (B.map (fun r => r.chunkId)).Nodup)
    (hndV : (V.map (fun r => r.chunkId)).Nodup)
    (hne : rrfFusion (3/10) (7/10) 60 B V ≠ []) :
    rerank defaultRerankConfig none (rrfFusion (3/10) (7/10) 60 B V) topK = [] := by
  unfold rerank
  rw [if_neg ?hcond]
  case hcond =>
    rintro (hc | hc)
    · simp [defaultRerankConfig] at hc
    · exact hne hc
  have hfilter : (rrfFusion (3/10) (7/10) 60 B V).filter
      (fun r => decide (defaultRerankConfig.relevanceThreshold ≤ r.score)) = [] := by
    rw [List.filter_eq_nil_iff]
    intro r hr
    obtain ⟨c, hc⟩ := rrfFusion_score_mem (3/10) (7/10) 60 B V r hr
    have hb := rrfScore_defaults_le B V c hndB hndV
    rw [← hc] at hb
    simp only [decide_eq_true_eq, defaultRerankConfig]
    intro hcon
    linarith
  simp only [hfilter]
  cases topK with
  | none => rfl
  | some kk => cases kk with
    | zero => rfl
    | succ m => rfl

set_option maxRecDepth 10000 in
theorem c4_witness :
    (([⟨"A".toList, "tA".toList, 2, "bm25".toList, []⟩] : List RetrievalResult).map
      (fun r => r.chunkId)).Nodup ∧
    rrfFusion (3/10) (7/10) 60 [⟨"A".toList, "tA".toList, 2, "bm25".toList, []⟩] [] ≠ [] ∧
    rerank defaultRerankConfig none
      (rrfFusion (3/10) (7/10) 60 [⟨"A".toList, "tA".toList, 2, "bm25".toList, []⟩] [])
      (some 5) = [] :=
  ⟨by decide, by with_unfolding_all decide,
   c4_rerank_default_empty [⟨"A".toList, "tA".toList, 2, "bm25".toList, []⟩] [] (some 5)
     (by decide) (by decide) (by with_unfolding_all decide)⟩

/-! ## Claim C9: relevance-scoring failure defaults -/

theorem sortByScoreDesc_mem (l : List RetrievalResult) (i : ℕ) (hi : i < l.length) :
    l.getD i default ∈ sortByScoreDesc l := by
  unfold sortByScoreDesc
  apply List.mem_map.mpr
  refine ⟨(i, (l.getD i default).score), ?_, rfl⟩
  rw [List.mem_insertionSort]
  apply List.mem_map.mpr
  refine ⟨(i, l.getD i default), ?_, rfl⟩
  have hlen : i < l.enum.length := by simp [hi]
  have hget : l.enum[i] = (i, l.getD i default) := by
    rw [List.getElem_enum, List.getD_eq_getElem _ _ hi]
  exact hget ▸ List.getElem_mem hlen

theorem scoreRelevance_mem (oracle : ℕ → Option ℚ) (results : List RetrievalResult)
    (i : ℕ) (hi : i < results.length) :
    { results.getD i default with score := getRelevanceScore (oracle i) } ∈
      scoreRelevance oracle results := by
  unfold scoreRelevance
  have hlen : i < (results.enum.map (fun p =>
      { p.2 with score := getRelevanceScore (oracle p.1) })).length := by
    simp [hi]
  have hget : (results.enum.map (fun p =>
      { p.2 with score := getRelevanceScore (oracle p.1) })).getD i default =
      { results.getD i default with score := getRelevanceScore (oracle i) } := by
    rw [List.getD_eq_getElem _ _ hlen, List.getElem_map, List.getElem_enum,
      List.getD_eq_getElem _ _ hi]
  rw [← hget]
  exact sortByScoreDesc_mem _ i hlen

/-- C9 (confirmed): a failed language-model call or numeric parse yields the
default relevance 0.5 for that candidate (modelled by the `none` outcome), a
parsed value is divided by 10 and clamped to [0, 1], every relevance score
lies in [0, 1] ∪ the candidate's prior score, and the rescored candidate —
including every failed one — still appears in the scored list, so no
collaborator failure escapes the scoring stage. -/
theorem c9_relevance_defaults (oracle : ℕ → Option ℚ) (results : List RetrievalResult)
    (i : ℕ) (hi : i < results.length) :
    getRelevanceScore none = 1/2 ∧
    (∀ x : ℚ, getRelevanceScore (some x) = min (max (x / 10) 0) 1) ∧
    (∀ o : Option ℚ, 0 ≤ getRelevanceScore o ∧ getRelevanceScore o ≤ 1) ∧
    { results.getD i default with score := getRelevanceScore (oracle i) } ∈
      scoreRelevance oracle results := by
  refine ⟨rfl, fun x => rfl, ?_, scoreRelevance_mem oracle results i hi⟩
  intro o
  match o with
  | none =>
    constructor <;> norm_num [getRelevanceScore]
  | some x =>
    unfold getRelevanceScore
    exact ⟨le_min (le_max_right _ 0) zero_le_one, min_le_right _ 1⟩

set_option maxRecDepth 10000 in
theorem c9_witness :
    (0 < ([⟨"A".toList, "tA".toList, 2, "bm25".toList, []⟩] : List RetrievalResult).length) ∧
    getRelevanceScore none = 1/2 ∧
    { ([⟨"A".toList, "tA".toList, 2, "bm25".toList, []⟩] :
        List RetrievalResult).getD 0 default with
      score := getRelevanceScore ((fun _ : ℕ => (none : Option ℚ)) 0) } ∈
      scoreRelevance (fun _ => none) [⟨"A".toList, "tA".toList, 2, "bm25".toList, []⟩] :=
  ⟨by decide,
   (c9_relevance_defaults (fun _ => none)
      [⟨"A".toList, "tA".toList, 2, "bm25".toList, []⟩] 0 (by decide)).1,
   (c9_relevance_defaults (fun _ => none)
      [⟨"A".toList, "tA".toList, 2, "bm25".toList, []⟩] 0 (by decide)).2.2.2⟩

/-! ## Claim C10: diversity filter -/

theorem textSimilarity_comm (t1 t2 : List Char) :
    textSimilarity t1 t2 = textSimilarity t2 t1 := by
  unfold textSimilarity
  by_cases h1 : wordSet t1 = ∅ <;> by_cases h2 : wordSet t2 = ∅ <;>
    simp [h1, h2, Finset.inter_comm, Finset.union_comm]

theorem filterDivLoop_ext (θ : ℚ) :
    ∀ (l diverse : List RetrievalResult),
      ∃ tl, filterDivLoop θ l diverse = diverse ++ tl := by
  intro l
  induction l with
  | nil => intro diverse; exact ⟨[], (List.append_nil _).symm⟩
  | cons r rest ih =>
    intro diverse
    unfold filterDivLoop
    split
    · obtain ⟨tl, htl⟩ := ih (diverse ++ [r])
      exact ⟨[r] ++ tl, by rw [htl, List.append_assoc]⟩
    · exact ih diverse

theorem filterDivLoop_pairwise (θ : ℚ) :
    ∀ (l diverse : List RetrievalResult),
      List.Pairwise (fun a b => textSimilarity a.text b.text ≤ θ) diverse →
      List.Pairwise (fun a b => textSimilarity a.text b.text ≤ θ)
        (filterDivLoop θ l diverse) := by
  intro l
  induction l with
  | nil => intro diverse h; exact h
  | cons r rest ih =>
    intro diverse h
    unfold filterDivLoop
    by_cases hc : diverse.all (fun s => decide (textSimilarity r.text s.text ≤ θ)) = true
    · rw [if_pos hc]
      apply ih
      rw [List.pairwise_append]
      refine ⟨h, List.pairwise_singleton _ _, ?_⟩
      intro a ha b hb
      rw [List.mem_singleton] at hb
      subst hb
      have h2 := of_decide_eq_true (List.all_eq_true.mp hc a ha)
      rw [textSimilarity_comm] at h2
      exact h2
    · rw [if_neg hc]
      exact ih diverse h

/-- C10 (confirmed): the diversity filter always keeps the first input
result, and every pair of kept results has Jaccard similarity of lowercase
word sets at most the configured diversity threshold. -/
theorem c10_diversity (θ : ℚ) (r : RetrievalResult) (rest : List RetrievalResult) :
    (filterDiversity θ (r :: rest)).head? = some r ∧
    List.Pairwise (fun a b => textSimilarity a.text b.text ≤ θ)
      (filterDiversity θ (r :: rest)) := by
  constructor
  · show (filterDivLoop θ rest [r]).head? = some r
    obtain ⟨tl, htl⟩ := filterDivLoop_ext θ rest [r]
    rw [htl]
    rfl
  · show List.Pairwise _ (filterDivLoop θ rest [r])
    exact filterDivLoop_pairwise θ rest [r] (List.pairwise_singleton _ _)

end ScholarBridge
